import Mathlib

/-!
# BillBear — verification of the bill-split allocation engine and room lifecycle

A shallow embedding of the BillBear Flask application (`app.py`).  Monetary
amounts are modelled as rationals; a currency string is modelled as either a
parsable value or an unparsable token (the code normalises unparsable strings
and the sentinel "N/A" to `0.0`).  Python dictionaries are modelled as
association lists with unique keys (insertion order preserved, assignment
updates in place or appends); Python sets as `Finset String`.  Two-decimal
rounding models Python's `round(x, 2)`; exact tie behaviour is not
load-bearing for any statement proved here.
-/

set_option autoImplicit false

namespace BillBear

/-- A currency-prefixed amount string: either one that parses to a rational
value after stripping the currency symbol and thousands separators, or an
unparsable / "N/A" token. -/
inductive Amount where
  | val (q : ℚ)
  | invalid
deriving DecidableEq, Repr

/-- `parse_amount` in `calculate_bill_split`: unparsable and "N/A" inputs
normalise to `0.0`. -/
def parse_amount : Amount → ℚ
  | .val q => q
  | .invalid => 0

/-- A receipt line item as stored on the room: a name and a price string. -/
structure Item where
  name : String
  price : Amount
deriving DecidableEq, Repr

/-- The charges fields of the room's `ocr_data` consumed by the engine. -/
structure OcrData where
  serviceCharge : Amount
  discount : Amount
  cgst : Amount
  sgst : Amount
deriving DecidableEq, Repr

/-- The Room aggregate (the fields the modelled operations touch). -/
structure Room where
  host_name : String
  room_name : String
  num_people : ℕ
  items : List Item
  ocr_data : OcrData
  users : List String
  selections : List (String × List String)
  submitted_users : Finset String
deriving DecidableEq

/-! ## Dictionary operations (Python `dict` on string keys) -/

/-- `d[k] = v` on a Python dict modelled as an association list with unique
keys: update the entry in place if the key is present, else append. -/
def dinsert {α : Type} : List (String × α) → String → α → List (String × α)
  | [], k, v => [(k, v)]
  | p :: rest, k, v => if p.1 = k then (k, v) :: rest else p :: dinsert rest k v

/-- `d.get(k)` returning `none` when absent. -/
def dlookup {α : Type} : List (String × α) → String → Option α
  | [], _ => none
  | p :: rest, k => if p.1 = k then some p.2 else dlookup rest k

/-- `d.get(k, dflt)`. -/
def dget {α : Type} (m : List (String × α)) (k : String) (dflt : α) : α :=
  (dlookup m k).getD dflt

/-- `k in d`. -/
def hasKey {α : Type} (m : List (String × α)) (k : String) : Prop :=
  (dlookup m k).isSome

instance {α : Type} (m : List (String × α)) (k : String) : Decidable (hasKey m k) := by
  unfold hasKey; infer_instance

/-! ## The allocation engine (`calculate_bill_split`) -/

/-- Rounding to the nearest integer, `⌊x + 1/2⌋` (equal to Mathlib's
`round`). -/
def round_nearest (x : ℚ) : ℤ := ⌊x + 1 / 2⌋

/-- Python `round(x, 2)` modelled on ℚ: round `100 * x` to the nearest
integer and divide back.  (Ties are not load-bearing anywhere below.) -/
def round2 (x : ℚ) : ℚ := ((round_nearest (100 * x) : ℤ) : ℚ) / 100

/-- Python `round(x, 1)`, used only for the percentage display field. -/
def round1 (x : ℚ) : ℚ := ((round_nearest (10 * x) : ℤ) : ℚ) / 10

/-- The price index: `item_prices[item['name']] = float(cleaned price)` over
the items in order, unparsable prices becoming `0.0`; a later item with the
same name overwrites the earlier price (Python dict assignment). -/
def item_prices (items : List Item) : List (String × ℚ) :=
  items.foldl (fun m it => dinsert m it.name (parse_amount it.price)) []

/-- `sum(d.values())`. -/
def dict_sum (m : List (String × ℚ)) : ℚ := (m.map Prod.snd).sum

/-- The engine's internal `subtotal = sum(item_prices.values())`, computed
from all current items, not from the selections. -/
def bill_subtotal (items : List Item) : ℚ := dict_sum (item_prices items)

/-- `item_selection_count`: for each name in the price index, the number of
user selections containing that name. -/
def item_selection_count (prices : List (String × ℚ))
    (selections : List (String × List String)) : List (String × ℕ) :=
  prices.map (fun p => (p.1, (selections.filter (fun us => p.1 ∈ us.2)).length))

/-- The inner loop accumulating one user's item total: for each selected
name, `price = item_prices.get(name, 0.0)`,
`count = item_selection_count.get(name, 1)`, and if `count > 0` the user's
share `price / count` is added. -/
def user_item_total (prices : List (String × ℚ)) (counts : List (String × ℕ))
    (selected : List String) : ℚ :=
  selected.foldl (fun acc name =>
    let price := dget prices name 0
    let cnt := dget counts name 1
    if 0 < cnt then acc + price / (cnt : ℚ) else acc) 0

/-- `user_totals`: one entry per user in `selections`, in order, each holding
that user's accumulated item total. -/
def user_totals (prices : List (String × ℚ)) (counts : List (String × ℕ))
    (selections : List (String × List String)) : List (String × ℚ) :=
  selections.map (fun us => (us.1, user_item_total prices counts (dget selections us.1 [])))

/-- The flat per-capita share of a derived charge: `amount / num_users` when
`num_users > 0`, else `0.0`. -/
def per_user_charge (amount : ℚ) (num_users : ℕ) : ℚ :=
  if 0 < num_users then amount / (num_users : ℚ) else 0

/-- `discount_percentage = discount / subtotal if subtotal > 0 else 0`. -/
def discount_percentage (discount subtotal : ℚ) : ℚ :=
  if 0 < subtotal then discount / subtotal else 0

/-- One user's row of the result's `user_breakdown`. -/
structure UserShare where
  selected_items : List String
  item_total : ℚ
  percentage : ℚ
  service_charge : ℚ
  discount : ℚ
  cgst : ℚ
  sgst : ℚ
  final_amount : ℚ
deriving DecidableEq, Repr

/-- The result's `totals` record. -/
structure BillTotals where
  subtotal : ℚ
  service_charge : ℚ
  discount : ℚ
  cgst : ℚ
  sgst : ℚ
  grand_total : ℚ
deriving DecidableEq, Repr

/-- The value returned by `calculate_bill_split`. -/
structure BillSplit where
  user_breakdown : List (String × UserShare)
  totals : BillTotals
  item_sharing : List (String × ℕ)
deriving DecidableEq, Repr

/-- `calculate_bill_split(room)`: the allocation engine, a pure function of
the room state. -/
def calculate_bill_split (room : Room) : BillSplit :=
  let prices := item_prices room.items
  let service_charge := parse_amount room.ocr_data.serviceCharge
  let discount := parse_amount room.ocr_data.discount
  let cgst := parse_amount room.ocr_data.cgst
  let sgst := parse_amount room.ocr_data.sgst
  let counts := item_selection_count prices room.selections
  let totals := user_totals prices counts room.selections
  let subtotal := bill_subtotal room.items
  let num_users := room.selections.length
  let cgst_per_user := per_user_charge cgst num_users
  let sgst_per_user := per_user_charge sgst num_users
  let service_charge_per_user := per_user_charge service_charge num_users
  let dp := discount_percentage discount subtotal
  { user_breakdown := totals.map (fun ut =>
      (ut.1,
        { selected_items := dget room.selections ut.1 []
          item_total := round2 ut.2
          percentage := if 0 < subtotal then round1 (ut.2 / subtotal * 100) else 0
          service_charge := round2 service_charge_per_user
          discount := round2 (ut.2 * dp)
          cgst := round2 cgst_per_user
          sgst := round2 sgst_per_user
          final_amount := round2 (ut.2 + service_charge_per_user + cgst_per_user
            + sgst_per_user - ut.2 * dp) }))
    totals :=
      { subtotal := round2 (dict_sum totals)
        service_charge := round2 service_charge
        discount := round2 discount
        cgst := round2 cgst
        sgst := round2 sgst
        grand_total := round2 ((totals.map (fun ut =>
          ut.2 + service_charge_per_user + cgst_per_user + sgst_per_user
            - ut.2 * dp)).sum) }
    item_sharing := counts }

/-! ## Room lifecycle operations -/

/-- The outcome of the POST branch of `select_items`: either the
already-submitted guard fires and the handler redirects to the waiting room
with the room untouched, or the selection is stored and the user marked
submitted. -/
inductive SelectResult where
  | redirect_waiting (r : Room)
  | submitted_ok (r : Room)
deriving DecidableEq

/-- `select_items` (POST): if `user_name` is already in `submitted_users`
the handler redirects without touching the room; otherwise it stores
`selections[user_name] = item_names` and adds the user to
`submitted_users`. -/
def select_items (room : Room) (user_name : String) (item_names : List String) :
    SelectResult :=
  if user_name ∈ room.submitted_users then .redirect_waiting room
  else .submitted_ok
    { room with
      selections := dinsert room.selections user_name item_names
      submitted_users := insert user_name room.submitted_users }

/-- One iteration of the `force_complete` loop over `users`: a user not yet
submitted gets the empty selection and is added to `submitted_users`. -/
def force_complete_step (acc : List (String × List String) × Finset String)
    (user : String) : List (String × List String) × Finset String :=
  if user ∈ acc.2 then acc else (dinsert acc.1 user [], insert user acc.2)

/-- `force_complete`: `none` models the 403 "Only the host can force
completion" response; otherwise every user of the room not yet in
`submitted_users` receives the empty selection and is marked submitted. -/
def force_complete (room : Room) (user_name : String) : Option Room :=
  if user_name ≠ room.host_name then none
  else
    let r := room.users.foldl force_complete_step (room.selections, room.submitted_users)
    some { room with selections := r.1, submitted_users := r.2 }

/-- The outcome of the POST branch of `join_room` (and of the equivalent
`join` handler). -/
inductive JoinResult where
  | alreadyJoined
  | roomFull
  | joined (r : Room)
deriving DecidableEq

/-- `join_room` (POST), after the room lookup: reject a name already in
`users` (exact string comparison), reject when the room holds `num_people`
users, else append the name. -/
def join_room (room : Room) (user_name : String) : JoinResult :=
  if user_name ∈ room.users then .alreadyJoined
  else if room.num_people ≤ room.users.length then .roomFull
  else .joined { room with users := room.users ++ [user_name] }

/-! ## Room creation and the store -/

/-- The character population of `generate_room_code`:
`string.ascii_uppercase + string.digits`. -/
def code_alphabet : List Char :=
  "ABCDEFGHIJKLMNOPQRSTUVWXYZ0123456789".toList

/-- `generate_room_code()` with the default length 6; the six uniform draws
of `random.choices` are supplied as an oracle. -/
def generate_room_code (picks : Fin 6 → Fin 36) : String :=
  String.mk ((List.finRange 6).map (fun i =>
    code_alphabet.get (Fin.cast (by decide) (picks i))))

/-- The room store, keyed by room code (Redis / fallback dict). -/
def Store : Type := List (String × Room)

/-- `save_room`: whole-document set. -/
def save_room (store : Store) (room_code : String) (room : Room) : Store :=
  dinsert store room_code room

/-- `room_exists`. -/
def room_exists (store : Store) (room_code : String) : Prop :=
  hasKey store room_code

instance (store : Store) (room_code : String) : Decidable (room_exists store room_code) := by
  unfold room_exists; infer_instance

/-- The POST branch of `create_room` after OCR: generate a room code (the
randomness oracle supplies the draws), build the initial room with
`users = [host_name]`, empty `selections` and empty `submitted_users`, and
save it under the generated code — with no existence check on the code
before use. Returns the updated store and the code. -/
def create_room (store : Store) (host_name room_name : String) (num_people : ℕ)
    (items : List Item) (ocr : OcrData) (picks : Fin 6 → Fin 36) : Store × String :=
  let room_code := generate_room_code picks
  let room_data : Room :=
    { host_name := host_name
      room_name := room_name
      num_people := num_people
      items := items
      ocr_data := ocr
      users := [host_name]
      selections := []
      submitted_users := ∅ }
  (save_room store room_code room_data, room_code)

/-! ## Concrete example data (used by witnesses and scenario checks) -/

/-- The charges record with every field present and zero. -/
def zeroCharges : OcrData :=
  { serviceCharge := .val 0, discount := .val 0, cgst := .val 0, sgst := .val 0 }

/-- The spec's scenario room: items Tea ₹20 and Coffee ₹30, all charges 0,
users Alice and Bob, each selecting both items. -/
def teaRoom : Room :=
  { host_name := "Alice"
    room_name := "Cafe"
    num_people := 2
    items := [{ name := "Tea", price := .val 20 }, { name := "Coffee", price := .val 30 }]
    ocr_data := zeroCharges
    users := ["Alice", "Bob"]
    selections := [("Alice", ["Tea", "Coffee"]), ("Bob", ["Tea", "Coffee"])]
    submitted_users := {"Alice", "Bob"} }

/-- The spec's discount scenario: one item of 100, discount 10, Alice the
sole selector. -/
def discountRoom : Room :=
  { host_name := "Alice"
    room_name := "Cafe"
    num_people := 1
    items := [{ name := "Cake", price := .val 100 }]
    ocr_data := { zeroCharges with discount := .val 10 }
    users := ["Alice"]
    selections := [("Alice", ["Cake"])]
    submitted_users := {"Alice"} }

/-- The scenario room with Bob not yet submitted: only Alice has a stored
selection. -/
def incompleteRoom : Room :=
  { teaRoom with
    selections := [("Alice", ["Tea"])]
    submitted_users := {"Alice"} }

/-- The scenario room with derived charges added: service charge 30, CGST 5,
SGST 5. -/
def serviceRoom : Room :=
  { teaRoom with
    ocr_data :=
      { serviceCharge := .val 30, discount := .val 0, cgst := .val 5, sgst := .val 5 } }

/-- A room whose only item is Tea while Alice's stored selection still
references a removed item name "Ghost". -/
def danglingRoom : Room :=
  { teaRoom with
    items := [{ name := "Tea", price := .val 20 }]
    selections := [("Alice", ["Tea", "Ghost"])]
    submitted_users := {"Alice"} }

/-! ## Helper lemmas: dictionaries -/

theorem dlookup_dinsert {α : Type} (m : List (String × α)) (k n : String) (v : α) :
    dlookup (dinsert m k v) n = if k = n then some v else dlookup m n := by
  induction m with
  | nil => simp [dinsert, dlookup]
  | cons p rest ih =>
    by_cases hpk : p.1 = k
    · by_cases hkn : k = n <;> simp [dinsert, dlookup, hpk, hkn]
    · by_cases hpn : p.1 = n
      · have hkn : ¬(k = n) := fun h => hpk (h ▸ hpn)
        have hnk : ¬(n = k) := fun h => hkn h.symm
        simp [dinsert, dlookup, hpk, hpn, hkn, hnk]
      · simp [dinsert, dlookup, hpk, hpn, ih]

theorem hasKey_iff_mem_keys {α : Type} (m : List (String × α)) (k : String) :
    hasKey m k ↔ k ∈ m.map Prod.fst := by
  induction m with
  | nil => simp [hasKey, dlookup]
  | cons p rest ih =>
    by_cases hpk : p.1 = k
    · simp [hasKey, dlookup, hpk]
    · have hkp : ¬(k = p.1) := fun h => hpk h.symm
      simpa [hasKey, dlookup, hpk, hkp] using ih

theorem mem_keys_dinsert {α : Type} (m : List (String × α)) (k n : String) (v : α) :
    n ∈ (dinsert m k v).map Prod.fst ↔ n = k ∨ n ∈ m.map Prod.fst := by
  induction m with
  | nil => simp [dinsert]
  | cons p rest ih =>
    by_cases hpk : p.1 = k
    · simp only [dinsert, hpk, if_pos, List.map_cons, List.mem_cons]
      tauto
    · simp only [dinsert, hpk, if_neg, ite_false, List.map_cons, List.mem_cons, ih]
      tauto

theorem nodup_keys_dinsert {α : Type} (m : List (String × α)) (k : String) (v : α)
    (h : (m.map Prod.fst).Nodup) : ((dinsert m k v).map Prod.fst).Nodup := by
  induction m with
  | nil => simp [dinsert]
  | cons p rest ih =>
    simp only [List.map_cons, List.nodup_cons] at h
    by_cases hpk : p.1 = k
    · simpa [dinsert, hpk] using h
    · simp only [dinsert, hpk, if_false, List.map_cons, List.nodup_cons]
      exact ⟨fun hmem => by
          rcases (mem_keys_dinsert rest k p.1 v).mp hmem with h1 | h1
          · exact hpk h1
          · exact h.1 h1,
        ih h.2⟩

theorem dinsert_of_not_mem_keys {α : Type} (m : List (String × α)) (k : String) (v : α)
    (h : k ∉ m.map Prod.fst) : dinsert m k v = m ++ [(k, v)] := by
  induction m with
  | nil => simp [dinsert]
  | cons p rest ih =>
    simp only [List.map_cons, List.mem_cons, not_or] at h
    have hpk : p.1 ≠ k := fun he => h.1 he.symm
    simp [dinsert, hpk, ih h.2]

theorem dlookup_eq_some_of_mem {α : Type} (m : List (String × α)) (k : String) (v : α)
    (hnd : (m.map Prod.fst).Nodup) (hmem : (k, v) ∈ m) : dlookup m k = some v := by
  induction m with
  | nil => simp at hmem
  | cons p rest ih =>
    simp only [List.map_cons, List.nodup_cons] at hnd
    rcases List.mem_cons.mp hmem with h | h
    · simp [dlookup, ← h]
    · have hpk : p.1 ≠ k := by
        intro he
        exact hnd.1 (he ▸ List.mem_map_of_mem Prod.fst h)
      simp [dlookup, hpk, ih hnd.2 h]

theorem dlookup_mem {α : Type} (m : List (String × α)) (k : String) (v : α)
    (h : dlookup m k = some v) : (k, v) ∈ m := by
  induction m with
  | nil => simp [dlookup] at h
  | cons p rest ih =>
    by_cases hpk : p.1 = k
    · simp only [dlookup, hpk, if_pos, Option.some.injEq] at h
      exact List.mem_cons.mpr (Or.inl (by rw [← h, ← hpk]))
    · simp only [dlookup, hpk, if_false] at h
      exact List.mem_cons.mpr (Or.inr (ih h))

/-! ## Helper lemmas: the price index -/

theorem foldl_dinsert_lookup (items : List Item) (m : List (String × ℚ)) (n : String) :
    dlookup (items.foldl (fun m it => dinsert m it.name (parse_amount it.price)) m) n
      = (items.reverse.find? (fun it => it.name == n)).elim (dlookup m n)
          (fun it => some (parse_amount it.price)) := by
  induction items generalizing m with
  | nil => simp
  | cons it rest ih =>
    simp only [List.foldl_cons, List.reverse_cons, ih, List.find?_append]
    rcases hf : rest.reverse.find? (fun i => i.name == n) with _ | it'
    · rcases hb : (it.name == n) with _ | _
      · have hne : ¬(it.name = n) := by simpa using hb
        simp [hf, List.find?_cons, hb, dlookup_dinsert, hne]
      · have he : it.name = n := by simpa using hb
        simp [hf, List.find?_cons, hb, dlookup_dinsert, he]
    · simp [hf]

theorem lookup_item_prices (items : List Item) (n : String) :
    dlookup (item_prices items) n
      = (items.reverse.find? (fun it => it.name == n)).map
          (fun it => parse_amount it.price) := by
  rw [item_prices, foldl_dinsert_lookup]
  rcases hf : items.reverse.find? (fun it => it.name == n) with _ | it <;>
    simp [hf, dlookup]

theorem hasKey_item_prices (items : List Item) (n : String) :
    hasKey (item_prices items) n ↔ n ∈ items.map Item.name := by
  simp only [hasKey, lookup_item_prices]
  rcases hf : items.reverse.find? (fun it => it.name == n) with _ | it
  · rw [hf]
    rw [List.find?_eq_none] at hf
    simp only [Option.map_none', Option.isSome_none, Bool.false_eq_true, false_iff]
    intro hmem
    rcases List.mem_map.mp hmem with ⟨it, hit, hname⟩
    exact (by simpa using hf it (List.mem_reverse.mpr hit) : ¬it.name = n) hname
  · have hpred := List.find?_some hf
    have hmem := List.mem_reverse.mp (List.mem_of_find?_eq_some hf)
    rw [hf]
    simp only [Option.map_some', Option.isSome_some, true_iff]
    exact List.mem_map.mpr ⟨it, hmem, by simpa using hpred⟩

theorem nodup_keys_item_prices (items : List Item) :
    ((item_prices items).map Prod.fst).Nodup := by
  have general : ∀ (l : List Item) (m : List (String × ℚ)),
      (m.map Prod.fst).Nodup →
      ((l.foldl (fun m it => dinsert m it.name (parse_amount it.price)) m).map
        Prod.fst).Nodup := by
    intro l
    induction l with
    | nil => intro m hm; simpa using hm
    | cons it rest ih =>
      intro m hm
      exact ih _ (nodup_keys_dinsert m it.name (parse_amount it.price) hm)
  exact general items [] (by simp)

theorem foldl_dinsert_fresh (items : List Item) (m : List (String × ℚ))
    (hfresh : ∀ it ∈ items, it.name ∉ m.map Prod.fst)
    (hnd : (items.map Item.name).Nodup) :
    items.foldl (fun m it => dinsert m it.name (parse_amount it.price)) m
      = m ++ items.map (fun it => (it.name, parse_amount it.price)) := by
  induction items generalizing m with
  | nil => simp
  | cons it rest ih =>
    simp only [List.map_cons, List.nodup_cons] at hnd
    have h1 : it.name ∉ m.map Prod.fst := hfresh it (List.mem_cons_self it rest)
    have h2 : ∀ it' ∈ rest, it'.name ∉ (m ++ [(it.name, parse_amount it.price)]).map Prod.fst := by
      intro it' hit'
      rw [List.map_append, List.mem_append]
      rintro (h | h)
      · exact hfresh it' (List.mem_cons_of_mem _ hit') h
      · simp only [List.map_cons, List.map_nil, List.mem_singleton] at h
        exact hnd.1 (h ▸ List.mem_map_of_mem Item.name hit')
    rw [List.foldl_cons, dinsert_of_not_mem_keys m it.name _ h1, ih _ h2 hnd.2]
    simp

theorem item_prices_of_nodup (items : List Item)
    (hnd : (items.map Item.name).Nodup) :
    item_prices items = items.map (fun it => (it.name, parse_amount it.price)) := by
  simpa [item_prices] using foldl_dinsert_fresh items [] (by simp) hnd

theorem dlookup_item_selection_count (prices : List (String × ℚ))
    (sels : List (String × List String)) (n : String) :
    dlookup (item_selection_count prices sels) n
      = if hasKey prices n
          then some ((sels.filter (fun us => n ∈ us.2)).length)
          else none := by
  induction prices with
  | nil => simp [item_selection_count, dlookup, hasKey]
  | cons p rest ih =>
    by_cases hpn : p.1 = n
    · simp [item_selection_count, dlookup, hasKey, hpn]
    · simp only [item_selection_count, List.map_cons, dlookup, hpn, if_false, ite_false]
      rw [item_selection_count] at ih
      rw [ih]
      have : hasKey (p :: rest) n ↔ hasKey rest n := by
        simp [hasKey, dlookup, hpn]
      by_cases hk : hasKey rest n <;> simp [hk, this]

theorem dlookup_map_fst {α β : Type} (l : List (String × α)) (g : String → β) (n : String) :
    dlookup (l.map (fun p => (p.1, g p.1))) n
      = if hasKey l n then some (g n) else none := by
  induction l with
  | nil => simp [dlookup, hasKey]
  | cons p rest ih =>
    by_cases hpn : p.1 = n
    · simp [dlookup, hasKey, hpn]
    · have hiff : hasKey (p :: rest) n ↔ hasKey rest n := by
        simp [hasKey, dlookup, hpn]
      simp only [List.map_cons, dlookup, hpn, if_false, ite_false, ih]
      by_cases hk : hasKey rest n <;> simp [hk, hiff]

theorem dlookup_map_entry {α β : Type} (l : List (String × α)) (g : String × α → β)
    (n : String) (v : α) (hnd : (l.map Prod.fst).Nodup) (hmem : (n, v) ∈ l) :
    dlookup (l.map (fun p => (p.1, g p))) n = some (g (n, v)) := by
  apply dlookup_eq_some_of_mem
  · rw [List.map_map]
    exact hnd
  · exact List.mem_map.mpr ⟨(n, v), hmem, rfl⟩

theorem dget_of_not_hasKey {α : Type} (m : List (String × α)) (k : String) (d : α)
    (h : ¬hasKey m k) : dget m k d = d := by
  rw [dget]
  rcases hl : dlookup m k with _ | v
  · rfl
  · exact absurd (by simp [hasKey, hl]) h

theorem dget_of_dlookup {α : Type} (m : List (String × α)) (k : String) (d v : α)
    (h : dlookup m k = some v) : dget m k d = v := by
  rw [dget, h, Option.getD_some]

/-! ## Helper lemmas: sums and rounding -/

theorem foldl_add_ite_eq_sum (c : String → Prop) [DecidablePred c] (f : String → ℚ)
    (sel : List String) (acc : ℚ) :
    sel.foldl (fun a x => if c x then a + f x else a) acc
      = acc + (sel.map (fun x => if c x then f x else 0)).sum := by
  induction sel generalizing acc with
  | nil => simp
  | cons x rest ih =>
    by_cases hx : c x <;> simp [hx, ih, add_assoc]

theorem user_item_total_eq_sum (prices : List (String × ℚ)) (counts : List (String × ℕ))
    (sel : List String) :
    user_item_total prices counts sel
      = (sel.map (fun name => if 0 < dget counts name 1
          then dget prices name 0 / ((dget counts name 1 : ℕ) : ℚ) else 0)).sum := by
  rw [user_item_total]
  simpa using foldl_add_ite_eq_sum (fun name => 0 < dget counts name 1)
    (fun name => dget prices name 0 / ((dget counts name 1 : ℕ) : ℚ)) sel 0

theorem list_sum_map_const {α : Type} (l : List α) (c : ℚ) :
    (l.map (fun _ => c)).sum = (l.length : ℚ) * c := by
  induction l with
  | nil => simp
  | cons x rest ih =>
    simp only [List.map_cons, List.sum_cons, List.length_cons, ih]
    push_cast
    ring

theorem sum_map_filter_eq {α : Type} (l : List α) (p : α → Bool) (f : α → ℚ)
    (h : ∀ x ∈ l, p x = false → f x = 0) :
    ((l.filter p).map f).sum = (l.map f).sum := by
  induction l with
  | nil => simp
  | cons x rest ih =>
    have ih2 := ih (fun y hy hp => h y (List.mem_cons_of_mem x hy) hp)
    rcases hp : p x with _ | _
    · simp [List.filter_cons, hp, h x (List.mem_cons_self x rest) hp, ih2]
    · simp [List.filter_cons, hp, ih2]

theorem round_nearest_eq_round (x : ℚ) : round_nearest x = round x :=
  (round_eq x).symm

theorem abs_round2_sub (x : ℚ) : |round2 x - x| ≤ 1 / 200 := by
  rw [round2, round_nearest_eq_round]
  have h := abs_sub_round (100 * x)
  have heq : ((round (100 * x) : ℤ) : ℚ) / 100 - x
      = (100 * x - ((round (100 * x) : ℤ) : ℚ)) * (-1 / 100) := by ring
  rw [heq, abs_mul]
  have h2 : |(-1 : ℚ) / 100| = 1 / 100 := by norm_num
  rw [h2]
  calc |100 * x - ((round (100 * x) : ℤ) : ℚ)| * (1 / 100)
      ≤ (1 / 2) * (1 / 100) := by
        apply mul_le_mul_of_nonneg_right h (by norm_num)
    _ = 1 / 200 := by norm_num

theorem list_sum_sub_sum_abs_le {α : Type} (l : List α) (f g : α → ℚ) (c : ℚ)
    (h : ∀ x ∈ l, |f x - g x| ≤ c) :
    |(l.map f).sum - (l.map g).sum| ≤ l.length * c := by
  induction l with
  | nil => simp
  | cons x rest ih =>
    have h1 : |f x - g x| ≤ c := h x (List.mem_cons_self x rest)
    have h2 := ih (fun y hy => h y (List.mem_cons_of_mem x hy))
    have key : |(f x + (rest.map f).sum) - (g x + (rest.map g).sum)|
        ≤ |f x - g x| + |(rest.map f).sum - (rest.map g).sum| := by
      have : (f x + (rest.map f).sum) - (g x + (rest.map g).sum)
          = (f x - g x) + ((rest.map f).sum - (rest.map g).sum) := by ring
      rw [this]
      exact abs_add _ _
    simp only [List.map_cons, List.sum_cons, List.length_cons]
    calc |(f x + (rest.map f).sum) - (g x + (rest.map g).sum)|
        ≤ |f x - g x| + |(rest.map f).sum - (rest.map g).sum| := key
      _ ≤ c + rest.length * c := add_le_add h1 h2
      _ = (rest.length + 1) * c := by ring
      _ = ((rest.length + 1 : ℕ) : ℚ) * c := by push_cast; ring

/-! ## C1 -/

/-- C1: for every Room whose item names are unique (the data model declares
receipt item names unique within a receipt), the engine's internal subtotal
`sum(item_prices.values())` equals the sum of the parsed prices of all
current items, and it is independent of the selections field of the room. -/
theorem subtotal_is_full_receipt_value (room : Room)
    (hnd : (room.items.map Item.name).Nodup) :
    bill_subtotal room.items
      = (room.items.map (fun it => parse_amount it.price)).sum
    ∧ ∀ sels : List (String × List String),
        bill_subtotal ({ room with selections := sels } : Room).items
          = bill_subtotal room.items := by
  refine ⟨?_, fun sels => rfl⟩
  rw [bill_subtotal, item_prices_of_nodup room.items hnd, dict_sum]
  rw [List.map_map]
  rfl

/-- C1 witness: the theorem applied to the concrete scenario room. -/
theorem subtotal_is_full_receipt_value_witness :
    (teaRoom.items.map Item.name).Nodup
    ∧ bill_subtotal teaRoom.items
        = (teaRoom.items.map (fun it => parse_amount it.price)).sum :=
  ⟨by decide, (subtotal_is_full_receipt_value teaRoom (by decide)).1⟩

/-! ## C10 -/

/-- C10: the price index keeps one entry per distinct item name, with the
last occurrence's parsed price; hence on a duplicate-name item list the
subtotal counts each name once with the last price (20, not the sequence
sum 30), and a user's allocation uses the last occurrence's price. -/
theorem item_prices_last_occurrence_wins :
    (∀ items : List Item, ((item_prices items).map Prod.fst).Nodup)
    ∧ (∀ (items : List Item) (n : String),
        dlookup (item_prices items) n
          = (items.reverse.find? (fun it => it.name == n)).map
              (fun it => parse_amount it.price))
    ∧ bill_subtotal [⟨"A", .val 10⟩, ⟨"A", .val 20⟩] = 20
    ∧ (([⟨"A", .val 10⟩, ⟨"A", .val 20⟩] : List Item).map
        (fun it => parse_amount it.price)).sum = 30
    ∧ (dlookup (calculate_bill_split
          { teaRoom with
            items := [⟨"A", .val 10⟩, ⟨"A", .val 20⟩]
            selections := [("Alice", ["A"])] }).user_breakdown "Alice").map
        UserShare.item_total = some 20 := by
  refine ⟨nodup_keys_item_prices, lookup_item_prices, ?_, ?_, ?_⟩
  · norm_num [bill_subtotal, dict_sum, item_prices, dinsert, parse_amount]
  · norm_num [parse_amount]
  · norm_num [calculate_bill_split, user_totals, user_item_total, dget, dlookup,
      item_prices, dinsert, item_selection_count, teaRoom, parse_amount,
      List.filter, round2, round_nearest, bill_subtotal, dict_sum,
      per_user_charge, discount_percentage, zeroCharges]

/-! ## C2 -/

/-- C2: for every user with a recorded selection, the engine's item total
is the sum, over the names of that user's selection present in the price
index, of the item price divided by the number of users whose selection
contains the name (equal split per selector); and in the Tea ₹20 / Coffee
₹30 scenario with Alice and Bob each selecting both, both item totals are
25.00 and the grand total is 50.00. -/
theorem item_total_equal_split_per_selector :
    (∀ (room : Room) (u : String) (sel : List String),
      (room.selections.map Prod.fst).Nodup →
      (u, sel) ∈ room.selections →
      dlookup (user_totals (item_prices room.items)
          (item_selection_count (item_prices room.items) room.selections)
          room.selections) u
        = some ((sel.map (fun name =>
            if hasKey (item_prices room.items) name
              then dget (item_prices room.items) name 0
                / (((room.selections.filter (fun us => name ∈ us.2)).length : ℕ) : ℚ)
              else 0)).sum))
    ∧ (dlookup (calculate_bill_split teaRoom).user_breakdown "Alice").map
        UserShare.item_total = some 25
    ∧ (dlookup (calculate_bill_split teaRoom).user_breakdown "Bob").map
        UserShare.item_total = some 25
    ∧ (calculate_bill_split teaRoom).totals.grand_total = 50 := by
  refine ⟨?_, ?_, ?_, ?_⟩
  · intro room u sel hnd hu
    set prices := item_prices room.items with hprices
    set counts := item_selection_count prices room.selections with hcounts
    have hkey : hasKey room.selections u := by
      rw [hasKey_iff_mem_keys]
      exact List.mem_map_of_mem Prod.fst hu
    have hlookup_sel : dlookup room.selections u = some sel :=
      dlookup_eq_some_of_mem room.selections u sel hnd hu
    have hmain : dlookup (user_totals prices counts room.selections) u
        = some (user_item_total prices counts (dget room.selections u [])) := by
      rw [user_totals, dlookup_map_fst room.selections
        (fun x => user_item_total prices counts (dget room.selections x [])) u,
        if_pos hkey]
    rw [hmain, dget_of_dlookup room.selections u [] sel hlookup_sel,
      user_item_total_eq_sum]
    refine congrArg (fun l : List ℚ => some l.sum) (List.map_congr_left ?_)
    intro name hname
    by_cases hk : hasKey prices name
    · have hcnt : dlookup counts name
          = some ((room.selections.filter (fun us => name ∈ us.2)).length) := by
        rw [hcounts, dlookup_item_selection_count, if_pos hk]
      rw [dget_of_dlookup counts name 1 _ hcnt, if_pos, if_pos hk]
      have hmemf : (u, sel) ∈ room.selections.filter (fun us => name ∈ us.2) :=
        List.mem_filter.mpr ⟨hu, by simpa using hname⟩
      exact List.length_pos_of_mem hmemf
    · have hcnt : dlookup counts name = none := by
        rw [hcounts, dlookup_item_selection_count, if_neg hk]
      have hprice : dget prices name 0 = 0 := by
        apply dget_of_not_hasKey
        exact hk
      have hcnt1 : dget counts name 1 = 1 := by
        rw [dget, hcnt, Option.getD_none]
      rw [hcnt1, if_neg hk, hprice, if_pos (by norm_num)]
      norm_num
  · have h1 : ("Tea" : String) ≠ "Coffee" := by decide
    norm_num [calculate_bill_split, user_totals, user_item_total, dget, dlookup,
      item_prices, dinsert, item_selection_count, teaRoom, parse_amount,
      List.filter, round2, round_nearest, bill_subtotal, dict_sum,
      per_user_charge, discount_percentage, zeroCharges, h1]
  · have h1 : ("Tea" : String) ≠ "Coffee" := by decide
    norm_num [calculate_bill_split, user_totals, user_item_total, dget, dlookup,
      item_prices, dinsert, item_selection_count, teaRoom, parse_amount,
      List.filter, round2, round_nearest, bill_subtotal, dict_sum,
      per_user_charge, discount_percentage, zeroCharges, h1]
  · have h1 : ("Tea" : String) ≠ "Coffee" := by decide
    norm_num [calculate_bill_split, user_totals, user_item_total, dget, dlookup,
      item_prices, dinsert, item_selection_count, teaRoom, parse_amount,
      List.filter, round2, round_nearest, bill_subtotal, dict_sum,
      per_user_charge, discount_percentage, zeroCharges, h1]

/-- C2 witness: the general part applied to the scenario room at user
Alice, every hypothesis discharged concretely. -/
theorem item_total_equal_split_per_selector_witness :
    (teaRoom.selections.map Prod.fst).Nodup
    ∧ ("Alice", ["Tea", "Coffee"]) ∈ teaRoom.selections
    ∧ dlookup (user_totals (item_prices teaRoom.items)
        (item_selection_count (item_prices teaRoom.items) teaRoom.selections)
        teaRoom.selections) "Alice"
      = some (((["Tea", "Coffee"] : List String).map (fun name =>
          if hasKey (item_prices teaRoom.items) name
            then dget (item_prices teaRoom.items) name 0
              / (((teaRoom.selections.filter (fun us => name ∈ us.2)).length : ℕ) : ℚ)
            else 0)).sum) :=
  ⟨by decide, by decide,
    item_total_equal_split_per_selector.1 teaRoom "Alice" ["Tea", "Coffee"]
      (by decide) (by decide)⟩

/-! ## C3 -/

/-- C3: each user's discount is their item total times the discount rate
`discount / subtotal` (the rate being 0 when the subtotal is not positive),
and when the users' item totals collectively sum to the full subtotal the
rounded per-user discounts sum back to the parsed discount within half a
cent per user. -/
theorem discount_proportional_recovery :
    (∀ d s : ℚ, 0 < s → discount_percentage d s = d / s)
    ∧ (∀ d s : ℚ, ¬0 < s → discount_percentage d s = 0)
    ∧ round2 0 = 0
    ∧ (∀ (room : Room) (u : String) (tu : ℚ),
        (room.selections.map Prod.fst).Nodup →
        (u, tu) ∈ user_totals (item_prices room.items)
          (item_selection_count (item_prices room.items) room.selections)
          room.selections →
        (dlookup (calculate_bill_split room).user_breakdown u).map UserShare.discount
          = some (round2 (tu * discount_percentage
              (parse_amount room.ocr_data.discount) (bill_subtotal room.items))))
    ∧ (∀ room : Room,
        0 < bill_subtotal room.items →
        dict_sum (user_totals (item_prices room.items)
          (item_selection_count (item_prices room.items) room.selections)
          room.selections) = bill_subtotal room.items →
        |((calculate_bill_split room).user_breakdown.map
            (fun p => p.2.discount)).sum - parse_amount room.ocr_data.discount|
          ≤ (room.selections.length : ℚ) * (1 / 200)) := by
  refine ⟨fun d s hs => by rw [discount_percentage, if_pos hs],
    fun d s hs => by rw [discount_percentage, if_neg hs],
    by norm_num [round2, round_nearest],
    ?_, ?_⟩
  · intro room u tu hnd hmem
    have hndt : ((user_totals (item_prices room.items)
        (item_selection_count (item_prices room.items) room.selections)
        room.selections).map Prod.fst).Nodup := by
      rw [user_totals, List.map_map]
      exact hnd
    rw [calculate_bill_split]
    rw [dlookup_map_entry _ _ u tu hndt hmem]
    rfl
  · intro room hpos hsum
    set totals := user_totals (item_prices room.items)
      (item_selection_count (item_prices room.items) room.selections)
      room.selections with htotals
    set dp := discount_percentage (parse_amount room.ocr_data.discount)
      (bill_subtotal room.items) with hdp
    have hmap : (calculate_bill_split room).user_breakdown.map (fun p => p.2.discount)
        = totals.map (fun ut => round2 (ut.2 * dp)) := by
      rw [calculate_bill_split, List.map_map]
      rfl
    have hlen : totals.length = room.selections.length := by
      rw [htotals, user_totals, List.length_map]
    have hexact : (totals.map (fun ut => ut.2 * dp)).sum
        = parse_amount room.ocr_data.discount := by
      rw [List.sum_map_mul_right, hdp, discount_percentage, if_pos hpos]
      rw [htotals] at hsum
      rw [dict_sum] at hsum
      rw [hsum]
      field_simp
    have hbound := list_sum_sub_sum_abs_le totals
      (fun ut => round2 (ut.2 * dp)) (fun ut => ut.2 * dp) (1 / 200)
      (fun ut _ => abs_round2_sub (ut.2 * dp))
    rw [hmap]
    calc |(totals.map (fun ut => round2 (ut.2 * dp))).sum
            - parse_amount room.ocr_data.discount|
        = |(totals.map (fun ut => round2 (ut.2 * dp))).sum
            - (totals.map (fun ut => ut.2 * dp)).sum| := by rw [hexact]
      _ ≤ (totals.length : ℚ) * (1 / 200) := hbound
      _ = (room.selections.length : ℚ) * (1 / 200) := by rw [hlen]

/-- C3 witness: the recovery bound applied to the discount scenario room
(subtotal 100, discount 10, Alice sole selector). -/
theorem discount_proportional_recovery_witness :
    0 < bill_subtotal discountRoom.items
    ∧ dict_sum (user_totals (item_prices discountRoom.items)
        (item_selection_count (item_prices discountRoom.items) discountRoom.selections)
        discountRoom.selections) = bill_subtotal discountRoom.items
    ∧ |((calculate_bill_split discountRoom).user_breakdown.map
          (fun p => p.2.discount)).sum - parse_amount discountRoom.ocr_data.discount|
        ≤ (discountRoom.selections.length : ℚ) * (1 / 200) := by
  have h1 : 0 < bill_subtotal discountRoom.items := by
    norm_num [bill_subtotal, dict_sum, item_prices, dinsert, parse_amount, discountRoom]
  have h2 : dict_sum (user_totals (item_prices discountRoom.items)
      (item_selection_count (item_prices discountRoom.items) discountRoom.selections)
      discountRoom.selections) = bill_subtotal discountRoom.items := by
    norm_num [bill_subtotal, dict_sum, item_prices, dinsert, parse_amount, discountRoom,
      user_totals, user_item_total, item_selection_count, dget, dlookup, List.filter,
      zeroCharges]
  exact ⟨h1, h2, discount_proportional_recovery.2.2.2.2 discountRoom h1 h2⟩

/-! ## C4 -/

/-- C4: with `n` the number of users having a selections entry, every
per-user derived charge is 0.0 when `n = 0`; when `n > 0` every user's
breakdown row carries exactly `serviceCharge/n`, `cgst/n` and `sgst/n`
(rounded for display), independent of that row's item total; and the
per-user service-charge shares sum back to the parsed service charge within
`n` cents. -/
theorem per_capita_charge_split :
    (∀ x : ℚ, per_user_charge x 0 = 0)
    ∧ (∀ room : Room, 0 < room.selections.length →
        ∀ p ∈ (calculate_bill_split room).user_breakdown,
          p.2.service_charge = round2 (parse_amount room.ocr_data.serviceCharge
              / (room.selections.length : ℚ))
          ∧ p.2.cgst = round2 (parse_amount room.ocr_data.cgst
              / (room.selections.length : ℚ))
          ∧ p.2.sgst = round2 (parse_amount room.ocr_data.sgst
              / (room.selections.length : ℚ)))
    ∧ (∀ room : Room, 0 < room.selections.length →
        |((calculate_bill_split room).user_breakdown.map
            (fun p => p.2.service_charge)).sum
          - parse_amount room.ocr_data.serviceCharge|
          ≤ (room.selections.length : ℚ) * (1 / 100)) := by
  refine ⟨fun x => by rw [per_user_charge]; simp, ?_, ?_⟩
  · intro room hn p hp
    rw [calculate_bill_split] at hp
    rcases List.mem_map.mp hp with ⟨ut, _, hut⟩
    rw [← hut]
    refine ⟨?_, ?_, ?_⟩ <;>
      simp only [per_user_charge, if_pos hn]
  · intro room hn
    set n := room.selections.length with hnn
    set sc := parse_amount room.ocr_data.serviceCharge with hsc
    set totals := user_totals (item_prices room.items)
      (item_selection_count (item_prices room.items) room.selections)
      room.selections with htotals
    have hmap : (calculate_bill_split room).user_breakdown.map
        (fun p => p.2.service_charge)
        = totals.map (fun _ => round2 (per_user_charge sc n)) := by
      rw [calculate_bill_split, List.map_map]
      rfl
    have hlen : totals.length = n := by
      rw [htotals, user_totals, List.length_map]
    have hne : ((n : ℚ)) ≠ 0 := by
      exact_mod_cast Nat.pos_iff_ne_zero.mp hn
    have hgsum : (totals.map (fun _ => per_user_charge sc n)).sum = sc := by
      rw [list_sum_map_const, hlen, per_user_charge, if_pos hn]
      field_simp
    have hbound := list_sum_sub_sum_abs_le totals
      (fun _ => round2 (per_user_charge sc n)) (fun _ => per_user_charge sc n)
      (1 / 200) (fun ut _ => abs_round2_sub (per_user_charge sc n))
    rw [hmap]
    calc |(totals.map (fun _ => round2 (per_user_charge sc n))).sum - sc|
        = |(totals.map (fun _ => round2 (per_user_charge sc n))).sum
            - (totals.map (fun _ => per_user_charge sc n)).sum| := by rw [hgsum]
      _ ≤ (totals.length : ℚ) * (1 / 200) := hbound
      _ ≤ (n : ℚ) * (1 / 100) := by
          rw [hlen]
          have : (0 : ℚ) ≤ (n : ℚ) := Nat.cast_nonneg n
          nlinarith

/-- C4 witness: the per-user equality and the sum bound at the service
charge scenario room (service 30, CGST 5, SGST 5, two selecting users). -/
theorem per_capita_charge_split_witness :
    0 < serviceRoom.selections.length
    ∧ (∀ p ∈ (calculate_bill_split serviceRoom).user_breakdown,
        p.2.service_charge = round2 (parse_amount serviceRoom.ocr_data.serviceCharge
            / (serviceRoom.selections.length : ℚ))
        ∧ p.2.cgst = round2 (parse_amount serviceRoom.ocr_data.cgst
            / (serviceRoom.selections.length : ℚ))
        ∧ p.2.sgst = round2 (parse_amount serviceRoom.ocr_data.sgst
            / (serviceRoom.selections.length : ℚ)))
    ∧ |((calculate_bill_split serviceRoom).user_breakdown.map
          (fun p => p.2.service_charge)).sum
        - parse_amount serviceRoom.ocr_data.serviceCharge|
        ≤ (serviceRoom.selections.length : ℚ) * (1 / 100) :=
  ⟨by decide,
    per_capita_charge_split.2.1 serviceRoom (by decide),
    per_capita_charge_split.2.2 serviceRoom (by decide)⟩

/-! ## C5 -/

/-- C5: the engine is total on selections with dangling item names: names
absent from the price index contribute 0 to the user's item total (the
total over the selection equals the total over the selection with dangling
names filtered out), and any name of a recorded selection that is in the
price index has selection count at least 1, so the guarded division is
never by zero; concretely, a room whose stored selection still references
the removed name "Ghost" yields item total 20 without error. -/
theorem dangling_reference_tolerance :
    (∀ (room : Room) (sel : List String),
      user_item_total (item_prices room.items)
        (item_selection_count (item_prices room.items) room.selections)
        (sel.filter (fun name => decide (hasKey (item_prices room.items) name)))
      = user_item_total (item_prices room.items)
        (item_selection_count (item_prices room.items) room.selections) sel)
    ∧ (∀ (room : Room) (u : String) (sel : List String) (name : String),
        (u, sel) ∈ room.selections → name ∈ sel →
        hasKey (item_prices room.items) name →
        0 < dget (item_selection_count (item_prices room.items) room.selections)
          name 1)
    ∧ (dlookup (calculate_bill_split danglingRoom).user_breakdown "Alice").map
        UserShare.item_total = some 20 := by
  refine ⟨?_, ?_, ?_⟩
  · intro room sel
    set prices := item_prices room.items with hprices
    set counts := item_selection_count prices room.selections with hcounts
    rw [user_item_total_eq_sum, user_item_total_eq_sum]
    apply sum_map_filter_eq
    intro name _ hfalse
    have hk : ¬hasKey prices name := by simpa using hfalse
    rw [dget_of_not_hasKey prices name 0 hk]
    simp
  · intro room u sel name hu hname hk
    have hcnt : dlookup (item_selection_count (item_prices room.items)
        room.selections) name
        = some ((room.selections.filter (fun us => name ∈ us.2)).length) := by
      rw [dlookup_item_selection_count, if_pos hk]
    rw [dget_of_dlookup _ name 1 _ hcnt]
    have hmemf : (u, sel) ∈ room.selections.filter (fun us => name ∈ us.2) :=
      List.mem_filter.mpr ⟨hu, by simpa using hname⟩
    exact List.length_pos_of_mem hmemf
  · have h1 : ("Tea" : String) ≠ "Ghost" := by decide
    norm_num [calculate_bill_split, user_totals, user_item_total, dget, dlookup,
      item_prices, dinsert, item_selection_count, danglingRoom, teaRoom, parse_amount,
      List.filter, round2, round_nearest, bill_subtotal, dict_sum,
      per_user_charge, discount_percentage, zeroCharges, h1]

/-- C5 witness: the count positivity applied concretely at the dangling
room for the surviving item Tea, and the filter identity at its stored
selection. -/
theorem dangling_reference_tolerance_witness :
    ("Alice", ["Tea", "Ghost"]) ∈ danglingRoom.selections
    ∧ ("Tea" : String) ∈ (["Tea", "Ghost"] : List String)
    ∧ hasKey (item_prices danglingRoom.items) "Tea"
    ∧ 0 < dget (item_selection_count (item_prices danglingRoom.items)
        danglingRoom.selections) "Tea" 1 :=
  ⟨by decide, by decide, by decide,
    dangling_reference_tolerance.2.1 danglingRoom "Alice" ["Tea", "Ghost"] "Tea"
      (by decide) (by decide) (by decide)⟩

/-! ## Helper lemmas: the force-complete loop -/

theorem force_complete_submitted_mono (users : List String)
    (sel : List (String × List String)) (sub : Finset String) :
    sub ⊆ (users.foldl force_complete_step (sel, sub)).2 := by
  induction users generalizing sel sub with
  | nil => simp
  | cons v rest ih =>
    rw [List.foldl_cons, force_complete_step]
    by_cases hv : v ∈ sub
    · simpa [hv] using ih sel sub
    · simp only [hv, if_false, ite_false]
      exact Finset.Subset.trans (Finset.subset_insert v sub) (ih _ _)

theorem force_complete_mem_submitted (users : List String)
    (sel : List (String × List String)) (sub : Finset String) :
    ∀ u ∈ users, u ∈ (users.foldl force_complete_step (sel, sub)).2 := by
  induction users generalizing sel sub with
  | nil => simp
  | cons v rest ih =>
    intro u hu
    rw [List.foldl_cons, force_complete_step]
    by_cases hv : v ∈ sub
    · simp only [hv, if_true, ite_true]
      rcases List.mem_cons.mp hu with h | h
      · exact force_complete_submitted_mono rest sel sub (h ▸ hv)
      · exact ih sel sub u h
    · simp only [hv, if_false, ite_false]
      rcases List.mem_cons.mp hu with h | h
      · exact force_complete_submitted_mono rest _ _
          (h ▸ Finset.mem_insert_self v sub)
      · exact ih _ _ u h

theorem force_complete_noop (users : List String)
    (sel : List (String × List String)) (sub : Finset String)
    (h : ∀ u ∈ users, u ∈ sub) :
    users.foldl force_complete_step (sel, sub) = (sel, sub) := by
  induction users with
  | nil => rfl
  | cons v rest ih =>
    rw [List.foldl_cons, force_complete_step]
    simp only [h v (List.mem_cons_self v rest), if_true, ite_true]
    exact ih (fun u hu => h u (List.mem_cons_of_mem v hu))

theorem force_complete_lookup_preserved (users : List String)
    (sel : List (String × List String)) (sub : Finset String) (u : String)
    (hu : u ∈ sub) :
    dlookup (users.foldl force_complete_step (sel, sub)).1 u = dlookup sel u := by
  induction users generalizing sel sub with
  | nil => rfl
  | cons v rest ih =>
    rw [List.foldl_cons, force_complete_step]
    by_cases hv : v ∈ sub
    · simpa [hv] using ih sel sub hu
    · have hvu : ¬(v = u) := fun h => hv (h ▸ hu)
      simp only [hv, if_false, ite_false]
      rw [ih _ _ (Finset.mem_insert_of_mem hu), dlookup_dinsert]
      simp [hvu]

theorem force_complete_lookup_new (users : List String)
    (sel : List (String × List String)) (sub : Finset String) (u : String)
    (hu : u ∈ users) (hnsub : u ∉ sub) :
    dlookup (users.foldl force_complete_step (sel, sub)).1 u = some [] := by
  induction users generalizing sel sub with
  | nil => simp at hu
  | cons v rest ih =>
    rw [List.foldl_cons, force_complete_step]
    by_cases hv : v ∈ sub
    · have hvu : ¬(u = v) := fun h => hnsub (h ▸ hv)
      have hur : u ∈ rest := by
        rcases List.mem_cons.mp hu with h | h
        · exact absurd h hvu
        · exact h
      simpa [hv] using ih sel sub hur hnsub
    · simp only [hv, if_false, ite_false]
      by_cases hvu : v = u
      · subst hvu
        rw [force_complete_lookup_preserved rest _ _ v
          (Finset.mem_insert_self v sub), dlookup_dinsert]
        simp
      · have hur : u ∈ rest := by
          rcases List.mem_cons.mp hu with h | h
          · exact absurd h.symm hvu
          · exact h
        have hnsub2 : u ∉ insert v sub := by
          rw [Finset.mem_insert]
          rintro (h | h)
          · exact hvu h.symm
          · exact hnsub h
        exact ih _ _ hur hnsub2

/-! ## C6 -/

/-- C6: force-complete invoked by the host succeeds and is idempotent:
a second invocation returns the same room unchanged; after one invocation
every user of the room is in `submitted_users`, and every previously
non-submitted user has the empty selection stored. -/
theorem force_complete_idempotent (room : Room) (requester : String)
    (hreq : requester = room.host_name) :
    ∃ r1 : Room, force_complete room requester = some r1
      ∧ force_complete r1 requester = some r1
      ∧ (∀ u ∈ room.users, u ∈ r1.submitted_users)
      ∧ (∀ u ∈ room.users, u ∉ room.submitted_users →
          dlookup r1.selections u = some []) := by
  set R := room.users.foldl force_complete_step
    (room.selections, room.submitted_users) with hR
  refine ⟨{ room with selections := R.1, submitted_users := R.2 }, ?_, ?_, ?_, ?_⟩
  · rw [force_complete]
    simp [hreq]
  · rw [force_complete]
    have hall : ∀ u ∈ room.users, u ∈ R.2 :=
      fun u hu => force_complete_mem_submitted room.users _ _ u hu
    have hnoop : room.users.foldl force_complete_step (R.1, R.2) = (R.1, R.2) :=
      force_complete_noop room.users R.1 R.2 hall
    simp [hreq, hnoop]
  · exact fun u hu => force_complete_mem_submitted room.users _ _ u hu
  · exact fun u hu hnsub => force_complete_lookup_new room.users _ _ u hu hnsub

/-- C6 witness: the theorem applied to the room where Bob has not
submitted, invoked by the host Alice. -/
theorem force_complete_idempotent_witness :
    "Alice" = incompleteRoom.host_name
    ∧ ∃ r1 : Room, force_complete incompleteRoom "Alice" = some r1
        ∧ force_complete r1 "Alice" = some r1
        ∧ (∀ u ∈ incompleteRoom.users, u ∈ r1.submitted_users)
        ∧ (∀ u ∈ incompleteRoom.users, u ∉ incompleteRoom.submitted_users →
            dlookup r1.selections u = some []) :=
  ⟨rfl, force_complete_idempotent incompleteRoom "Alice" rfl⟩

/-! ## C7 -/

/-- C7: submitting again after a user is already in `submitted_users` is a
silent redirect, not an error: whatever the new item names, the handler
returns the room completely unchanged (prior selection included). -/
theorem resubmission_silent_noop (room : Room) (user_name : String)
    (item_names : List String) (h : user_name ∈ room.submitted_users) :
    select_items room user_name item_names = .redirect_waiting room := by
  rw [select_items, if_pos h]

/-- C7 witness: Alice, already submitted with selection ["Tea"], resubmits
["Coffee"]; the room comes back untouched. -/
theorem resubmission_silent_noop_witness :
    "Alice" ∈ incompleteRoom.submitted_users
    ∧ select_items incompleteRoom "Alice" ["Coffee"]
        = .redirect_waiting incompleteRoom :=
  ⟨by decide, resubmission_silent_noop incompleteRoom "Alice" ["Coffee"] (by decide)⟩

/-! ## C8 -/

/-- C8: the join operation fails with AlreadyJoined exactly when the name
is already in `users` (exact, case-sensitive comparison), fails with
RoomFull exactly when the room already holds `num_people` users (given the
name is new), and otherwise appends the name; `num_people = 2` with two
joined users rejects a third with RoomFull, while the differently-cased
name "alice" is a fresh name. -/
theorem join_room_error_conditions :
    (∀ (room : Room) (u : String),
      join_room room u = .alreadyJoined ↔ u ∈ room.users)
    ∧ (∀ (room : Room) (u : String), u ∉ room.users →
        (join_room room u = .roomFull ↔ room.num_people ≤ room.users.length))
    ∧ (∀ (room : Room) (u : String), u ∉ room.users →
        room.users.length < room.num_people →
        join_room room u = .joined { room with users := room.users ++ [u] })
    ∧ join_room teaRoom "Carol" = .roomFull
    ∧ join_room { teaRoom with num_people := 3 } "alice"
        = .joined { teaRoom with num_people := 3, users := teaRoom.users ++ ["alice"] } := by
  refine ⟨?_, ?_, ?_, ?_, ?_⟩
  · intro room u
    by_cases hu : u ∈ room.users
    · simp [join_room, hu]
    · by_cases hn : room.num_people ≤ room.users.length <;>
        simp [join_room, hu, hn]
  · intro room u hu
    by_cases hn : room.num_people ≤ room.users.length <;>
      simp [join_room, hu, hn]
  · intro room u hu hlt
    rw [join_room, if_neg hu, if_neg (not_le.mpr hlt)]
  · have hc : ("Carol" : String) ∉ teaRoom.users := by decide
    simp [join_room, teaRoom, hc]
  · have ha : ("alice" : String) ∉ ({ teaRoom with num_people := 3 } : Room).users :=
      by decide
    rw [join_room, if_neg ha, if_neg (by decide)]

/-- C8 witness: the RoomFull rule applied concretely to the full scenario
room and the third user Carol. -/
theorem join_room_error_conditions_witness :
    ("Carol" : String) ∉ teaRoom.users
    ∧ teaRoom.num_people ≤ teaRoom.users.length
    ∧ join_room teaRoom "Carol" = .roomFull :=
  ⟨by decide, by decide,
    (join_room_error_conditions.2.1 teaRoom "Carol" (by decide)).mpr (by decide)⟩

/-! ## C9 -/

/-- C9 counterexample: `create_room` performs no check that the generated
code is absent from the store and no retry: with "AAAAAA" already mapped to
the scenario room, a creation whose random draws produce "AAAAAA" still
uses that code, and the stored room under "AAAAAA" is no longer the old
one (the existing room is silently overwritten). -/
theorem create_room_collision_counterexample :
    room_exists [("AAAAAA", teaRoom)] "AAAAAA"
    ∧ (create_room [("AAAAAA", teaRoom)] "Host" "New" 2 [] zeroCharges
        (fun _ => ⟨0, by norm_num⟩)).2 = "AAAAAA"
    ∧ dlookup (create_room [("AAAAAA", teaRoom)] "Host" "New" 2 [] zeroCharges
        (fun _ => ⟨0, by norm_num⟩)).1 "AAAAAA" ≠ some teaRoom := by
  refine ⟨by decide, by decide, by decide⟩

/-- C9 amended: `create_room` assigns the freshly generated code — 6
characters drawn from [A-Z0-9] — without verifying non-existence in the
store, saves unconditionally under that code, and initializes the room with
`users = [host_name]`, empty selections and empty submitted set. -/
theorem create_room_amended (store : Store) (host_name room_name : String)
    (num_people : ℕ) (items : List Item) (ocr : OcrData) (picks : Fin 6 → Fin 36) :
    (generate_room_code picks).length = 6
    ∧ (∀ c ∈ (generate_room_code picks).toList, c ∈ code_alphabet)
    ∧ create_room store host_name room_name num_people items ocr picks
        = (save_room store (generate_room_code picks)
            { host_name := host_name, room_name := room_name
              num_people := num_people, items := items, ocr_data := ocr
              users := [host_name], selections := [], submitted_users := ∅ },
           generate_room_code picks)
    ∧ dlookup (create_room store host_name room_name num_people items ocr picks).1
        (generate_room_code picks)
        = some { host_name := host_name, room_name := room_name
                 num_people := num_people, items := items, ocr_data := ocr
                 users := [host_name], selections := [], submitted_users := ∅ } := by
  refine ⟨?_, ?_, rfl, ?_⟩
  · simp [generate_room_code, String.length]
  · intro c hc
    simp [generate_room_code, String.toList] at hc
    rcases hc with ⟨i, hi⟩
    exact hi ▸ List.getElem_mem _
  · rw [create_room, save_room, dlookup_dinsert]
    simp

end BillBear
